import Mathlib

/-!
Verification of the zmarshal repository: a Go demo driver (`zmarshal.go`)
exercising a type-tagged marshal/unmarshal engine for interface values.
The engine itself lives outside the repository sources, so it is modelled
from the specification; the driver functions (`Make`, `ex1`..`ex5`) are
embedded directly from `zmarshal.go`.
-/

namespace ZM

/-- Modelled from the spec: the variant descriptor of a concrete Go type
(§3 "Variant Descriptor"): type identity (bare name, package for the
`Qualified` style, import path for the `Full` style), its capability set
(method names, §9), and its field schema in declaration order. -/
structure VariantType where
  pkg : String
  path : String
  name : String
  methods : List String
  fieldNames : List String
  deriving DecidableEq

/-- Modelled from the spec: a concrete Go struct value as seen by the
engine — its dynamic variant type plus its (scalar) fields in declaration
order (§3 "Value", restricted to the string-field records the repository's
`Plant`/`Animal` types exercise). -/
structure GoStruct where
  typ : VariantType
  fields : List (String × String)
  deriving DecidableEq

/-- Modelled from the spec: a field of the transient parse tree — a scalar
or a nested record (§4.2), enough to express the `ShapeMismatch` condition. -/
inductive FieldVal where
  | str (s : String)
  | nested (fields : List (String × String))
  deriving DecidableEq

/-- Modelled from the spec: one node of the encoded payload / parse tree:
named fields plus at most one out-of-band type-name decoration (§3
"Decoration", §6). -/
structure Node where
  fields : List (String × FieldVal)
  decoration : Option String
  deriving DecidableEq

/-- Modelled from the spec: the naming-policy styles `Simple` / `Qualified`
(`zson.StylePackage`) / `Full` (§3 "Type Name", §6). -/
inductive Style where
  | simple
  | package
  | full
  deriving DecidableEq

/-- Modelled from the spec: the name a naming policy derives from a type
identifier: bare identifier, `pkg.Name`, or full import path (§3, §6). -/
def styleName : Style → VariantType → String
  | .simple, t => t.name
  | .package, t => t.pkg ++ "." ++ t.name
  | .full, t => t.path ++ "." ++ t.name

/-- Modelled from the spec: marshaler configuration — the decoration style
set by `Decorate` and the explicit name bindings set by `NamedBindings`. -/
structure Marshaler where
  style : Style
  named : List (String × VariantType)

/-- Modelled from the spec: naming resolution order per value (§4.1):
(1) an explicitly registered name for this concrete type wins; (2) else the
configured naming policy applies to the type identifier. -/
def encodeName (m : Marshaler) (t : VariantType) : String :=
  match m.named.find? (fun b => decide (b.2 = t)) with
  | some b => b.1
  | none => styleName m.style t

/-- Modelled from the spec: marshaling a concrete value reached through an
abstract-typed reference (the drivers' `Thing`): serialize the fields in
declaration order and attach the resolved type name as the decoration
(§4.1). -/
def marshalThing (m : Marshaler) (v : GoStruct) : Node :=
  { fields := v.fields.map (fun p => (p.1, FieldVal.str p.2))
    decoration := some (encodeName m v.typ) }

/-- Modelled from the spec: textual rendering of one payload field. -/
def renderField : String × FieldVal → String
  | (n, .str s) => n ++ ":\"" ++ s ++ "\""
  | (n, .nested fs) =>
      n ++ ":\x7b" ++ String.intercalate "," (fs.map (fun p => p.1 ++ ":\"" ++ p.2 ++ "\"")) ++ "\x7d"

/-- Modelled from the spec: textual rendering of a payload node — fields in
list order between braces, then the decoration suffix (§6). -/
def renderNode (node : Node) : String :=
  "\x7b" ++ String.intercalate "," (node.fields.map renderField) ++ "\x7d" ++
    (match node.decoration with
     | some nm => "(=" ++ nm ++ ")"
     | none => "")

/-- Modelled from the spec: the byte output of `Marshal` on a value reached
through the abstract `Thing` type. -/
def marshalBytes (m : Marshaler) (v : GoStruct) : String :=
  renderNode (marshalThing m v)

/-- Modelled from the spec: decode-side error taxonomy (§7). -/
inductive ZErr where
  | MalformedPayload
  | UnboundType (name : String)
  | IncompatibleBinding (name : String)
  | AmbiguousTarget
  | ShapeMismatch
  deriving DecidableEq

/-- Modelled from the spec: the static destination type of a decode call —
abstract (an interface with its required capability set, §9) or concrete. -/
inductive DestType where
  | abstract (required : List String)
  | concrete (t : VariantType)
  deriving DecidableEq

/-- Modelled from the spec: the binding registry of an Unmarshaler, a
name-to-constructor mapping populated before first use (§3, §4.3). -/
structure Unmarshaler where
  registry : List (String × VariantType)

/-- Modelled from the spec: registry resolution `Resolve(name)` (§4.3). -/
def lookupBinding (r : List (String × VariantType)) (n : String) : Option VariantType :=
  (r.find? (fun b => decide (b.1 = n))).map (fun b => b.2)

/-- Modelled from the spec: implicit registration (`Bind`) registers a
concrete type under the names every naming policy would derive for it, so
decode can resolve whichever name encode used (§4.3 RegisterImplicit). -/
def bindTypes (ts : List VariantType) : List (String × VariantType) :=
  (ts.map (fun t =>
    [(styleName .simple t, t), (styleName .package t, t), (styleName .full t, t)])).flatten

/-- Modelled from the spec: capability-set compatibility — the resolved
concrete type must offer every method the abstract destination requires
(§9). -/
def implements (t : VariantType) (required : List String) : Bool :=
  required.all (fun m => t.methods.contains m)

/-- Modelled from the spec: step 1–2 of the decode algorithm (§4.2) —
resolve the effective target type from the decoration and the static
destination type, with the `UnboundType` / `IncompatibleBinding` /
`AmbiguousTarget` failures. -/
def resolveTarget (u : Unmarshaler) (deco : Option String) (destTy : DestType) :
    Except ZErr VariantType :=
  match deco with
  | some name =>
    match lookupBinding u.registry name with
    | none => .error (.UnboundType name)
    | some t =>
      match destTy with
      | .abstract required =>
          if implements t required then .ok t else .error (.IncompatibleBinding name)
      | .concrete t' =>
          if t = t' then .ok t else .error (.IncompatibleBinding name)
  | none =>
    match destTy with
    | .abstract _ => .error .AmbiguousTarget
    | .concrete t => .ok t

/-- Modelled from the spec: payload-field lookup by name. -/
def lookupField (pf : List (String × FieldVal)) (n : String) : Option FieldVal :=
  (pf.find? (fun p => decide (p.1 = n))).map (fun p => p.2)

/-- Modelled from the spec: step 3 of the decode algorithm (§4.2) —
populate the target type's fields by name from the payload; a payload
field with no destination match is ignored, a destination field with no
payload entry is left at its zero value, and a payload record where the
schema expects a scalar is a `ShapeMismatch`. -/
def populateFields (pf : List (String × FieldVal)) : List String → Except ZErr (List (String × String))
  | [] => .ok []
  | n :: rest =>
    match lookupField pf n with
    | none => (populateFields pf rest).map (fun fs => (n, "") :: fs)
    | some (.str s) => (populateFields pf rest).map (fun fs => (n, s) :: fs)
    | some (.nested _) => .error .ShapeMismatch

/-- Modelled from the spec: the decode algorithm `Unmarshal(payload, &dest)`
(§4.2 steps 1–4) as a pure function returning the populated value or the
first failure. -/
def unmarshal (u : Unmarshaler) (node : Node) (destTy : DestType) : Except ZErr GoStruct :=
  match resolveTarget u node.decoration destTy with
  | .error e => .error e
  | .ok t =>
    match populateFields node.fields t.fieldNames with
    | .error e => .error e
    | .ok fs => .ok { typ := t, fields := fs }

/-- Modelled from the spec: the decode call with its destination reference
made explicit — the destination is written only at step 4, after every
failure check has passed; each error path returns before touching it
(§4.2, §4.2 "the destination reference is left unmodified on error"). -/
def unmarshalInto (u : Unmarshaler) (node : Node) (destTy : DestType)
    (dest : Option GoStruct) : Option GoStruct × Option ZErr :=
  match resolveTarget u node.decoration destTy with
  | .error e => (dest, some e)
  | .ok t =>
    match populateFields node.fields t.fieldNames with
    | .error e => (dest, some e)
    | .ok fs => (some { typ := t, fields := fs }, none)

/-- The `Plant` variant of `zmarshal.go`: one string field `MyColor`,
method set of the `Thing` interface. -/
def PlantT : VariantType :=
  { pkg := "main", path := "github.com/mccanne/zmarshal", name := "Plant"
    methods := ["Color"], fieldNames := ["MyColor"] }

/-- The `Animal` variant of `zmarshal.go`. -/
def AnimalT : VariantType :=
  { pkg := "main", path := "github.com/mccanne/zmarshal", name := "Animal"
    methods := ["Color"], fieldNames := ["MyColor"] }

/-- The abstract `Thing` interface of `zmarshal.go` as a decode target:
it requires the `Color` method. -/
def thingDest : DestType := .abstract ["Color"]

/-- The marshaler of `ex1`/`ex2`/`ex3`: `Decorate(StyleSimple)`, no named
bindings. -/
def simpleMarshaler : Marshaler := { style := .simple, named := [] }

/-- The unmarshaler of `ex2`/`ex3`: `Bind(Animal{}, Plant{})`. -/
def exUnmarshaler : Unmarshaler := { registry := bindTypes [AnimalT, PlantT] }

/-- The value `&Plant{"red"}` produced by `Make("rose")`. -/
def roseVal : GoStruct := { typ := PlantT, fields := [("MyColor", "red")] }

/-- The value `&Plant{"green"}` produced by `Make("ivy")`. -/
def ivyVal : GoStruct := { typ := PlantT, fields := [("MyColor", "green")] }

/-- The value `&Animal{"pink"}` produced by `Make("flamingo")`. -/
def flamingoVal : GoStruct := { typ := AnimalT, fields := [("MyColor", "pink")] }

/-- Embedded from `zmarshal.go` lines 27–38: `Make` maps `"rose"`, `"ivy"`
and `"flamingo"` to concrete `Thing` values and everything else to `nil`
(modelled as `none`). -/
def Make (which : String) : Option GoStruct :=
  if which = "rose" then some roseVal
  else if which = "ivy" then some ivyVal
  else if which = "flamingo" then some flamingoVal
  else none

/-- Go semantics of `s, _ := call()`: a discarded error leaves the zero
value `""` in the string result. Embedded from the `roseZSON, _ :=`
pattern of `ex1`/`ex3`–`ex5`. -/
def goDiscard (r : Except ZErr String) : String :=
  match r with
  | .ok s => s
  | .error _ => ""

/-- Rendering of a decode error for `fmt.Println(err)` in `ex2`. -/
def errMessage : ZErr → String
  | .MalformedPayload => "malformed payload"
  | .UnboundType nm => "unbound type: " ++ nm
  | .IncompatibleBinding nm => "incompatible binding: " ++ nm
  | .AmbiguousTarget => "ambiguous target"
  | .ShapeMismatch => "shape mismatch"

/-- Embedded from `ex1` (`zmarshal.go` lines 40–49): both Marshal errors
are discarded, the two payload strings are printed as-is. -/
def ex1Out (mRose mFlamingo : Except ZErr String) : List String :=
  [goDiscard mRose, goDiscard mFlamingo]

/-- Accessor for the `MyColor` field, the model of `flamingo.Color()`. -/
def colorOf (v : GoStruct) : String :=
  ((v.fields.find? (fun p => decide (p.1 = "MyColor"))).map (fun p => p.2)).getD ""

/-- Embedded from `ex2` (`zmarshal.go` lines 51–66): the Unmarshal error is
checked and printed; on success the color line is printed. -/
def ex2Out (decode : Except ZErr GoStruct) : String :=
  match decode with
  | .error e => errMessage e
  | .ok v => "The flamingo is " ++ colorOf v

/-- Embedded from `ex3` (`zmarshal.go` lines 68–80): the Unmarshal error is
discarded, so on failure `flamingo` keeps its zero value `nil` and the
type assertion `flamingo.(*Animal)` reports `false`. -/
def ex3Out (decode : Except ZErr GoStruct) : String :=
  let flamingo : Option GoStruct :=
    match decode with
    | .ok v => some v
    | .error _ => none
  match flamingo with
  | some v => "The flamingo is an Animal? " ++ (if v.typ = AnimalT then "true" else "false")
  | none => "The flamingo is an Animal? false"

/-- The marshaler of `ex5`: `NamedBindings` mapping `Plant.v0` / `Animal.v0`
to the two variants, no decoration style beyond the default. -/
def versionedMarshaler : Marshaler :=
  { style := .simple, named := [("Plant.v0", PlantT), ("Animal.v0", AnimalT)] }

/-- An unmarshaler whose registry holds the `ex5` versioned names. -/
def versionedUnmarshaler : Unmarshaler :=
  { registry := [("Plant.v0", PlantT), ("Animal.v0", AnimalT)] }

/-- The registry after the active encode-time name moved on to `Animal.v1`
while `Animal.v0` stays registered for old payloads. -/
def evolvedUnmarshaler : Unmarshaler :=
  { registry := [("Plant.v0", PlantT), ("Animal.v1", AnimalT), ("Animal.v0", AnimalT)] }

/-- A variant shaped like Go's `io.Writer` implementation types: bare name
`Writer` in package `io`. -/
def ioWriterT : VariantType :=
  { pkg := "io", path := "io", name := "Writer", methods := ["Write"], fieldNames := [] }

/-- A variant with the same bare name `Writer` in package `bufio` — the
name-conflict example the repository's README warns about. -/
def bufioWriterT : VariantType :=
  { pkg := "bufio", path := "bufio", name := "Writer", methods := ["Write"], fieldNames := [] }

end ZM

namespace WalkM

/-- Modelled from the spec: an in-memory Go value as the marshal walk sees
it (§4.1): a scalar, a record of named fields in declaration order, a kind
the serialization substrate cannot represent (a function or channel-like
handle), or a reference into a heap of shared values — the only way the
value graph can contain a cycle. -/
inductive GVal where
  | str (s : String)
  | funcVal
  | chanVal
  | ref (id : Nat)
  | record (fields : List (String × GVal))

/-- Modelled from the spec: encode-side error taxonomy (§4.1, §7). -/
inductive MErr where
  | UnsupportedType
  | CyclicValue
  deriving DecidableEq

/-- Scalar rendering used by the walk. -/
def quoteS (s : String) : String := "\"" ++ s ++ "\""

/-- Modelled from the spec: the recursive marshal walk (§4.1). `path` is
the visited set of value identities (heap ids) along the current recursion
path; meeting one again is the reference-cycle detection. Fields are
serialized in declaration order. The fuel argument only bounds recursion
depth; `marshalG` supplies enough for the walk to never exhaust it. -/
def walk (heap : List GVal) : Nat → List Nat → GVal ⊕ List (String × GVal) → Except MErr String
  | 0, _, _ => .error .CyclicValue
  | _ + 1, _, .inl (.str s) => .ok (quoteS s)
  | _ + 1, _, .inl .funcVal => .error .UnsupportedType
  | _ + 1, _, .inl .chanVal => .error .UnsupportedType
  | fuel + 1, path, .inl (.ref id) =>
      if id ∈ path then .error .CyclicValue
      else
        match heap[id]? with
        | some w => walk heap fuel (id :: path) (.inl w)
        | none => .ok "null"
  | fuel + 1, path, .inl (.record fs) =>
      match walk heap fuel path (.inr fs) with
      | .error e => .error e
      | .ok body => .ok ("\x7b" ++ body ++ "\x7d")
  | _ + 1, _, .inr [] => .ok ""
  | fuel + 1, path, .inr ((n, v) :: rest) =>
      match walk heap fuel path (.inl v) with
      | .error e => .error e
      | .ok s =>
        match walk heap fuel path (.inr rest) with
        | .error e => .error e
        | .ok r => .ok (n ++ ":" ++ s ++ ";" ++ r)

/-- Structural size of a walk item, used only to budget the walk's fuel. -/
def gsize : GVal ⊕ List (String × GVal) → Nat
  | .inl (.str _) => 1
  | .inl .funcVal => 1
  | .inl .chanVal => 1
  | .inl (.ref _) => 1
  | .inl (.record fs) => 1 + gsize (.inr fs)
  | .inr [] => 1
  | .inr ((_, v) :: rest) => 1 + gsize (.inl v) + gsize (.inr rest)
  termination_by x => sizeOf x

/-- Combined weight of the heap entries not yet on the walk path; together
with the size of the current node it bounds the remaining recursion depth. -/
def heapSlack (heap : List GVal) (path : List Nat) : Nat :=
  ((Finset.range heap.length).filter (fun i => i ∉ path)).sum
    (fun i => 1 + gsize (.inl (heap.getD i (.str ""))))

/-- Upper bound on the recursion depth of `walk` from a given state. -/
def walkMeasure (heap : List GVal) (path : List Nat) (x : GVal ⊕ List (String × GVal)) : Nat :=
  gsize x + heapSlack heap path

/-- Modelled from the spec: `Marshal` runs the recursive walk from the root
with an empty visited set (§4.1); the supplied fuel strictly dominates the
walk's depth, so it never runs out. -/
def marshalG (heap : List GVal) (v : GVal) : Except MErr String :=
  walk heap (walkMeasure heap [] (.inl v) + 1) [] (.inl v)

/-- Reachability in the value graph: from a value to itself, into a record
field, or through a heap reference. -/
inductive Reaches (heap : List GVal) : GVal → GVal → Prop where
  | refl (v : GVal) : Reaches heap v v
  | fieldStep {fs : List (String × GVal)} {n : String} {v u : GVal} :
      (n, v) ∈ fs → Reaches heap v u → Reaches heap (.record fs) u
  | refStep {id : Nat} {w u : GVal} :
      heap[id]? = some w → Reaches heap w u → Reaches heap (.ref id) u

/-- A value of a kind the serialization substrate cannot represent. -/
def Unsupported (u : GVal) : Prop := u = .funcVal ∨ u = .chanVal

/-- The input's value graph holds a field of an unsupported kind. -/
def HasUnsup (heap : List GVal) (v : GVal) : Prop :=
  ∃ u, Reaches heap v u ∧ Unsupported u

/-- The input's value graph contains a reference cycle: a reachable
reference whose target reaches a reference to the same identity. -/
def HasCycle (heap : List GVal) (v : GVal) : Prop :=
  ∃ id w, heap[id]? = some w ∧ Reaches heap v (.ref id) ∧ Reaches heap w (.ref id)

/-- Reachability from a walk item (a value or a field list). -/
def ReachesX (heap : List GVal) : GVal ⊕ List (String × GVal) → GVal → Prop
  | .inl v => fun u => Reaches heap v u
  | .inr fs => fun u => ∃ n v, (n, v) ∈ fs ∧ Reaches heap v u

/-- A heap whose single entry refers back to itself through a record that
also holds an unsupported field: both error conditions at once. -/
def overlapHeap : List GVal := [.record [("a", .ref 0), ("b", .funcVal)]]

/-- A minimal self-referential heap. -/
def loopHeap : List GVal := [.ref 0]

end WalkM

section RoundTripLemmas

open ZM

theorem lookupField_cons_of_ne (n m : String) (x : FieldVal) (pf : List (String × FieldVal))
    (h : n ≠ m) : lookupField ((n, x) :: pf) m = lookupField pf m := by
  simp [lookupField, List.find?_cons, h]

theorem populateFields_skip (names : List String) (pf : List (String × FieldVal))
    (n : String) (x : FieldVal) (h : n ∉ names) :
    populateFields ((n, x) :: pf) names = populateFields pf names := by
  induction names with
  | nil => rfl
  | cons m rest ih =>
    have hnm : n ≠ m := fun e => h (e ▸ List.mem_cons_self m rest)
    have hrest : n ∉ rest := fun hm => h (List.mem_cons_of_mem m hm)
    simp only [populateFields, lookupField_cons_of_ne n m x pf hnm, ih hrest]

theorem populate_roundtrip (fs : List (String × String))
    (h : (fs.map Prod.fst).Nodup) :
    populateFields (fs.map (fun p => (p.1, FieldVal.str p.2))) (fs.map Prod.fst) = .ok fs := by
  induction fs with
  | nil => rfl
  | cons p rest ih =>
    obtain ⟨n, s⟩ := p
    simp only [List.map_cons, List.nodup_cons] at h
    have hhead : lookupField ((n, FieldVal.str s) :: rest.map (fun p => (p.1, FieldVal.str p.2))) n =
        some (FieldVal.str s) := by
      simp [lookupField, List.find?_cons]
    simp only [List.map_cons, populateFields, hhead,
      populateFields_skip _ _ _ _ h.1, ih h.2, Except.map]

end RoundTripLemmas

section ClaimTheorems

open ZM

theorem round_trip_aux (t : VariantType) (fs : List (String × String))
    (h1 : resolveTarget exUnmarshaler (some (encodeName simpleMarshaler t)) thingDest = .ok t)
    (h2 : fs.map Prod.fst = t.fieldNames) (h3 : t.fieldNames.Nodup) :
    unmarshal exUnmarshaler (marshalThing simpleMarshaler ⟨t, fs⟩) thingDest = .ok ⟨t, fs⟩ := by
  have hnd : (fs.map Prod.fst).Nodup := by rw [h2]; exact h3
  have hpop : populateFields (fs.map (fun p => (p.1, FieldVal.str p.2))) t.fieldNames
      = .ok fs := by
    rw [← h2]; exact populate_roundtrip fs hnd
  simp only [unmarshal, marshalThing, h1, hpop]

/-- C1: for every concrete variant value (a `*Plant` or `*Animal`) whose
type is registered in the `ex2`/`ex3` unmarshaler's binding registry and
reachable through the abstract `Thing` type, unmarshaling the payload
produced by marshaling it yields a field-wise equal value whose dynamic
variant type (`typ` component) equals the input's. -/
theorem thing_round_trip (v : GoStruct)
    (hty : v.typ = PlantT ∨ v.typ = AnimalT)
    (hwf : v.fields.map Prod.fst = v.typ.fieldNames) :
    unmarshal exUnmarshaler (marshalThing simpleMarshaler v) thingDest = .ok v := by
  obtain ⟨t, fs⟩ := v
  replace hty : t = PlantT ∨ t = AnimalT := hty
  replace hwf : fs.map Prod.fst = t.fieldNames := hwf
  rcases hty with h | h <;> subst h
  · exact round_trip_aux PlantT fs rfl hwf (by decide)
  · exact round_trip_aux AnimalT fs rfl hwf (by decide)

theorem thing_round_trip_witness :
    (flamingoVal.typ = PlantT ∨ flamingoVal.typ = AnimalT) ∧
    unmarshal exUnmarshaler (marshalThing simpleMarshaler flamingoVal) thingDest
      = .ok flamingoVal :=
  ⟨Or.inr rfl, thing_round_trip flamingoVal (Or.inr rfl) rfl⟩

/-- C2: a payload carrying a type-name decoration that the unmarshaler's
binding registry does not resolve makes every decode of it, into any
destination type, fail with `UnboundType` naming that type. -/
theorem unbound_type_fails (u : Unmarshaler) (node : Node) (d : DestType) (nm : String)
    (hdec : node.decoration = some nm)
    (hnone : lookupBinding u.registry nm = none) :
    unmarshal u node d = .error (.UnboundType nm) := by
  simp [unmarshal, resolveTarget, hdec, hnone]

theorem unbound_type_witness :
    (marshalThing simpleMarshaler flamingoVal).decoration = some "Animal" ∧
    lookupBinding (bindTypes [PlantT]) "Animal" = none ∧
    unmarshal ⟨bindTypes [PlantT]⟩ (marshalThing simpleMarshaler flamingoVal) thingDest
      = .error (.UnboundType "Animal") :=
  ⟨rfl, rfl, unbound_type_fails ⟨bindTypes [PlantT]⟩ _ thingDest "Animal" rfl rfl⟩

/-- C3: an undecorated payload node decoded into an abstract destination
fails with `AmbiguousTarget`, while decoding it into a concrete destination
type resolves that concrete type as the effective target. -/
theorem undecorated_decode (u : Unmarshaler) (node : Node)
    (hdec : node.decoration = none) :
    (∀ req, unmarshal u node (.abstract req) = .error .AmbiguousTarget) ∧
    (∀ t : VariantType, resolveTarget u node.decoration (.concrete t) = .ok t) := by
  constructor
  · intro req
    simp [unmarshal, resolveTarget, hdec]
  · intro t
    simp [resolveTarget, hdec]

theorem undecorated_decode_witness :
    (Node.mk [("MyColor", FieldVal.str "pink")] none).decoration = none ∧
    unmarshal exUnmarshaler ⟨[("MyColor", FieldVal.str "pink")], none⟩ (.abstract ["Color"])
      = .error .AmbiguousTarget ∧
    resolveTarget exUnmarshaler none (.concrete PlantT) = .ok PlantT :=
  ⟨rfl,
   (undecorated_decode exUnmarshaler ⟨[("MyColor", FieldVal.str "pink")], none⟩ rfl).1 ["Color"],
   (undecorated_decode exUnmarshaler ⟨[("MyColor", FieldVal.str "pink")], none⟩ rfl).2 PlantT⟩

/-- C4: marshaling is deterministic — two Marshal calls on an unchanged
value yield byte-identical payloads — and the payload lists the fields in
the value's declaration order, not some unordered iteration order. -/
theorem marshal_deterministic (m : Marshaler) (v v1 v2 : GoStruct)
    (h1 : v1 = v) (h2 : v2 = v) :
    marshalBytes m v1 = marshalBytes m v2 ∧
    (marshalThing m v).fields.map Prod.fst = v.fields.map Prod.fst := by
  subst h1; subst h2
  refine ⟨rfl, ?_⟩
  simp [marshalThing]

theorem marshal_deterministic_witness :
    (roseVal = roseVal) ∧
    marshalBytes simpleMarshaler roseVal = marshalBytes simpleMarshaler roseVal ∧
    (marshalThing simpleMarshaler roseVal).fields.map Prod.fst
      = roseVal.fields.map Prod.fst :=
  ⟨rfl, (marshal_deterministic simpleMarshaler roseVal roseVal roseVal rfl rfl).1,
    (marshal_deterministic simpleMarshaler roseVal roseVal roseVal rfl rfl).2⟩

end ClaimTheorems

section ClaimTheoremsTwo

open ZM

/-- C5 counterexample: the claim's leading universal — any two structurally
distinct variants reached through the same abstract-typed field resolve to
different type names — fails under the `Simple` policy: `io.Writer` and
`bufio.Writer` are distinct variants, both satisfy the same abstract
capability set, yet their payloads carry identical decorations. -/
theorem same_bare_name_collision :
    ioWriterT ≠ bufioWriterT ∧
    implements ioWriterT ["Write"] = true ∧
    implements bufioWriterT ["Write"] = true ∧
    (marshalThing simpleMarshaler ⟨ioWriterT, []⟩).decoration
      = (marshalThing simpleMarshaler ⟨bufioWriterT, []⟩).decoration := by
  refine ⟨by decide, rfl, rfl, rfl⟩

/-- C5 amended: under the `Simple` policy with no named bindings, two
variants whose bare type identifiers differ resolve to different
decorations; in particular `Plant` and `Animal` values with identical
fields are decorated `Plant` and `Animal` respectively. -/
theorem simple_style_distinct_decorations (v w : GoStruct)
    (h : v.typ.name ≠ w.typ.name) :
    (marshalThing simpleMarshaler v).decoration
      ≠ (marshalThing simpleMarshaler w).decoration := by
  simpa [marshalThing, encodeName, simpleMarshaler, styleName] using h

theorem simple_style_distinct_decorations_witness :
    (PlantT.name ≠ AnimalT.name) ∧
    (marshalThing simpleMarshaler ⟨PlantT, [("MyColor", "red")]⟩).decoration = some "Plant" ∧
    (marshalThing simpleMarshaler ⟨AnimalT, [("MyColor", "red")]⟩).decoration = some "Animal" ∧
    (marshalThing simpleMarshaler ⟨PlantT, [("MyColor", "red")]⟩).decoration
      ≠ (marshalThing simpleMarshaler ⟨AnimalT, [("MyColor", "red")]⟩).decoration :=
  ⟨by decide, rfl, rfl,
    simple_style_distinct_decorations ⟨PlantT, [("MyColor", "red")]⟩
      ⟨AnimalT, [("MyColor", "red")]⟩ (by decide)⟩

/-- C6: whenever the decode call reports an error — any of the decode-side
failures — the destination reference is returned exactly as it was; the
failed call performs no partial write to the destination. -/
theorem error_leaves_dest (u : Unmarshaler) (node : Node) (d : DestType)
    (dest : Option GoStruct) (e : ZErr)
    (herr : (unmarshalInto u node d dest).2 = some e) :
    (unmarshalInto u node d dest).1 = dest := by
  unfold unmarshalInto at herr ⊢
  cases hr : resolveTarget u node.decoration d with
  | error e' => simp [hr]
  | ok t =>
    cases hp : populateFields node.fields t.fieldNames with
    | error e' => simp [hr, hp]
    | ok fs => simp [hr, hp] at herr

theorem error_leaves_dest_witness :
    ((unmarshalInto ⟨bindTypes [PlantT]⟩ (marshalThing simpleMarshaler flamingoVal)
        thingDest (some roseVal)).2 = some (ZErr.UnboundType "Animal")) ∧
    (unmarshalInto ⟨bindTypes [PlantT]⟩ (marshalThing simpleMarshaler flamingoVal)
        thingDest (some roseVal)).1 = some roseVal :=
  ⟨rfl, error_leaves_dest ⟨bindTypes [PlantT]⟩ (marshalThing simpleMarshaler flamingoVal)
      thingDest (some roseVal) (ZErr.UnboundType "Animal") rfl⟩

/-- C7: with explicit named bindings `Plant.v0` / `Animal.v0` the payloads
carry those names (the registered name wins over the naming policy, which
would have said `Plant`), decoding with those names registered reproduces
the original concrete values and types, and a payload tagged `Animal.v0`
still decodes after the active encode-time name moves to `Animal.v1`, since
`v0` remains registered. -/
theorem versioned_evolution :
    (marshalThing versionedMarshaler roseVal).decoration = some "Plant.v0" ∧
    (marshalThing versionedMarshaler flamingoVal).decoration = some "Animal.v0" ∧
    styleName versionedMarshaler.style PlantT = "Plant" ∧
    unmarshal versionedUnmarshaler (marshalThing versionedMarshaler roseVal) thingDest
      = .ok roseVal ∧
    unmarshal versionedUnmarshaler (marshalThing versionedMarshaler flamingoVal) thingDest
      = .ok flamingoVal ∧
    unmarshal evolvedUnmarshaler ⟨[("MyColor", FieldVal.str "pink")], some "Animal.v0"⟩
      thingDest = .ok flamingoVal := by
  refine ⟨rfl, rfl, rfl, rfl, rfl, rfl⟩

/-- C9: `Make` is total on strings — `"rose"`, `"ivy"` and `"flamingo"` map
to the three concrete `Thing` values and every other string maps to `nil`
(`none`), which the example drivers pass on to Marshal without a nil
check. -/
theorem make_total :
    Make "rose" = some roseVal ∧
    Make "ivy" = some ivyVal ∧
    Make "flamingo" = some flamingoVal ∧
    ∀ s : String, s ≠ "rose" → s ≠ "ivy" → s ≠ "flamingo" → Make s = none := by
  refine ⟨rfl, rfl, rfl, ?_⟩
  intro s h1 h2 h3
  simp [Make, h1, h2, h3]

theorem make_total_witness :
    (("cardinal" : String) ≠ "rose") ∧ Make "cardinal" = none :=
  ⟨by decide, make_total.2.2.2 "cardinal" (by decide) (by decide) (by decide)⟩

/-- C10: the drivers discard errors — `ex1` prints the zero-value empty
string when a Marshal fails (on either value), `ex3` prints a plain
`false` line when its Unmarshal fails, and only `ex2` surfaces the decode
error to the user. -/
theorem driver_error_discarding :
    (∀ e mf, ex1Out (.error e) mf = ["", goDiscard mf]) ∧
    (∀ e mr, ex1Out mr (.error e) = [goDiscard mr, ""]) ∧
    (∀ e, ex3Out (.error e) = "The flamingo is an Animal? false") ∧
    (∀ e, ex2Out (.error e) = errMessage e) := by
  refine ⟨fun e mf => rfl, fun e mr => rfl, fun e => rfl, fun e => rfl⟩

end ClaimTheoremsTwo

namespace WalkM

theorem reaches_trans {heap : List GVal} {a b c : GVal}
    (h1 : Reaches heap a b) (h2 : Reaches heap b c) : Reaches heap a c := by
  induction h1 with
  | refl => exact h2
  | fieldStep mem _ ih => exact .fieldStep mem (ih h2)
  | refStep hid _ ih => exact .refStep hid (ih h2)

theorem walk_unsup {heap : List GVal} :
    ∀ fuel path x, walk heap fuel path x = .error .UnsupportedType →
      ∃ u, ReachesX heap x u ∧ Unsupported u := by
  intro fuel
  induction fuel with
  | zero =>
    intro path x h
    simp [walk] at h
  | succ fuel ih =>
    intro path x h
    match x with
    | .inl (.str s) => simp [walk] at h
    | .inl .funcVal => exact ⟨.funcVal, .refl _, Or.inl rfl⟩
    | .inl .chanVal => exact ⟨.chanVal, .refl _, Or.inr rfl⟩
    | .inl (.ref id) =>
      simp only [walk] at h
      by_cases hmem : id ∈ path
      · simp [hmem] at h
      · simp only [hmem, if_false] at h
        cases hw : heap[id]? with
        | none => rw [hw] at h; simp at h
        | some w =>
          rw [hw] at h
          obtain ⟨u, hu, hunsup⟩ := ih (id :: path) (.inl w) h
          exact ⟨u, .refStep hw hu, hunsup⟩
    | .inl (.record fs) =>
      simp only [walk] at h
      cases hb : walk heap fuel path (.inr fs) with
      | ok body => rw [hb] at h; simp at h
      | error e =>
        rw [hb] at h
        simp at h
        subst h
        obtain ⟨u, ⟨n, v, mem, hr⟩, hunsup⟩ := ih path (.inr fs) hb
        exact ⟨u, .fieldStep mem hr, hunsup⟩
    | .inr [] => simp [walk] at h
    | .inr ((n, v) :: rest) =>
      simp only [walk] at h
      cases hv : walk heap fuel path (.inl v) with
      | error e =>
        rw [hv] at h
        simp at h
        subst h
        obtain ⟨u, hr, hunsup⟩ := ih path (.inl v) hv
        exact ⟨u, ⟨n, v, List.mem_cons_self _ _, hr⟩, hunsup⟩
      | ok s =>
        rw [hv] at h
        cases hrest : walk heap fuel path (.inr rest) with
        | error e =>
          rw [hrest] at h
          simp at h
          subst h
          obtain ⟨u, ⟨n', v', mem, hr⟩, hunsup⟩ := ih path (.inr rest) hrest
          exact ⟨u, ⟨n', v', List.mem_cons_of_mem _ mem, hr⟩, hunsup⟩
        | ok r => rw [hrest] at h; simp at h

end WalkM

namespace WalkM

theorem walk_fields_ok {heap : List GVal} :
    ∀ (fs : List (String × GVal)) fuel path s,
      walk heap fuel path (.inr fs) = .ok s →
      ∀ n v, (n, v) ∈ fs → ∃ fuel' s', walk heap fuel' path (.inl v) = .ok s' := by
  intro fs
  induction fs with
  | nil =>
    intro fuel path s h n v mem
    simp at mem
  | cons p rest ih =>
    intro fuel path s h n v mem
    match fuel with
    | 0 => simp [walk] at h
    | fuel + 1 =>
      obtain ⟨pn, pv⟩ := p
      simp only [walk] at h
      cases hv : walk heap fuel path (.inl pv) with
      | error e => rw [hv] at h; simp at h
      | ok sv =>
        rw [hv] at h
        cases hr : walk heap fuel path (.inr rest) with
        | error e => rw [hr] at h; simp at h
        | ok sr =>
          rcases List.mem_cons.mp mem with heq | hmem
          · obtain ⟨h1, h2⟩ := Prod.mk.injEq .. ▸ heq
            exact ⟨fuel, sv, by rw [h2]; exact hv⟩
          · exact ih fuel path sr hr n v hmem

theorem walk_ok_reaches {heap : List GVal} {v u : GVal} (hr : Reaches heap v u) :
    ∀ fuel path s, walk heap fuel path (.inl v) = .ok s →
      ∃ fuel' path' s', path ⊆ path' ∧ walk heap fuel' path' (.inl u) = .ok s' := by
  induction hr with
  | refl w =>
    intro fuel path s h
    exact ⟨fuel, path, s, List.Subset.refl _, h⟩
  | @fieldStep fs n v u mem hru ih =>
    intro fuel path s h
    match fuel with
    | 0 => simp [walk] at h
    | fuel + 1 =>
      simp only [walk] at h
      cases hb : walk heap fuel path (.inr fs) with
      | error e => rw [hb] at h; simp at h
      | ok body =>
        obtain ⟨fuel'', s'', hv⟩ := walk_fields_ok fs fuel path body hb n v mem
        exact ih fuel'' path s'' hv
  | @refStep id w u hid hrw ih =>
    intro fuel path s h
    match fuel with
    | 0 => simp [walk] at h
    | fuel + 1 =>
      simp only [walk] at h
      by_cases hmem : id ∈ path
      · simp [hmem] at h
      · simp only [hmem, if_false] at h
        rw [hid] at h
        obtain ⟨fuel', path', s', hsub, hw⟩ := ih fuel (id :: path) s h
        exact ⟨fuel', path', s', fun a ha => hsub (List.mem_cons_of_mem _ ha), hw⟩

theorem ok_no_unsup {heap : List GVal} {v : GVal} {s : String}
    (h : marshalG heap v = .ok s) : ¬ HasUnsup heap v := by
  rintro ⟨u, hru, hunsup⟩
  obtain ⟨fuel', path', s', _, hok⟩ := walk_ok_reaches hru _ [] s h
  rcases hunsup with rfl | rfl
  · match fuel' with
    | 0 => simp [walk] at hok
    | fuel' + 1 => simp [walk] at hok
  · match fuel' with
    | 0 => simp [walk] at hok
    | fuel' + 1 => simp [walk] at hok

theorem ok_no_cycle {heap : List GVal} {v : GVal} {s : String}
    (h : marshalG heap v = .ok s) : ¬ HasCycle heap v := by
  rintro ⟨id, w, hid, hv, hw⟩
  obtain ⟨f1, p1, s1, _, h1⟩ := walk_ok_reaches hv _ [] s h
  match f1 with
  | 0 => simp [walk] at h1
  | f1 + 1 =>
    simp only [walk] at h1
    by_cases hmem : id ∈ p1
    · simp [hmem] at h1
    · simp only [hmem, if_false] at h1
      rw [hid] at h1
      obtain ⟨f2, p2, s2, hsub, h2⟩ := walk_ok_reaches hw f1 (id :: p1) s1 h1
      have hid2 : id ∈ p2 := hsub (List.mem_cons_self id p1)
      match f2 with
      | 0 => simp [walk] at h2
      | f2 + 1 => simp [walk, hid2] at h2

end WalkM

namespace WalkM

theorem heapSlack_cons {heap : List GVal} {path : List Nat} {id : Nat} {w : GVal}
    (hw : heap[id]? = some w) (hmem : id ∉ path) :
    heapSlack heap path = heapSlack heap (id :: path) + (1 + gsize (.inl w)) := by
  have hlt : id < heap.length := by
    rcases List.getElem?_eq_some.mp hw with ⟨h, _⟩
    exact h
  have hmemA : id ∈ (Finset.range heap.length).filter (fun i => i ∉ path) := by
    simp [Finset.mem_filter, Finset.mem_range, hlt, hmem]
  have hfilter : (Finset.range heap.length).filter (fun i => i ∉ (id :: path)) =
      ((Finset.range heap.length).filter (fun i => i ∉ path)).erase id := by
    ext x
    simp only [Finset.mem_filter, Finset.mem_erase, Finset.mem_range, List.mem_cons]
    tauto
  have hgetD : heap.getD id (.str "") = w := by
    rw [List.getD_eq_getElem?_getD, hw]
    rfl
  unfold heapSlack
  rw [hfilter]
  rw [show (1 + gsize (.inl w)) = (fun i => 1 + gsize (.inl (heap.getD i (.str "")))) id from by
    simp only [hgetD]]
  exact (Finset.sum_erase_add _ _ hmemA).symm

theorem walk_cyclic {heap : List GVal} (r : GVal) :
    ∀ fuel path x,
      (∀ i ∈ path, Reaches heap r (.ref i)) →
      (∀ i ∈ path, ∃ w, heap[i]? = some w ∧ ∀ u, ReachesX heap x u → Reaches heap w u) →
      (∀ u, ReachesX heap x u → Reaches heap r u) →
      walkMeasure heap path x < fuel →
      walk heap fuel path x = .error .CyclicValue →
      HasCycle heap r := by
  intro fuel
  induction fuel with
  | zero =>
    intro path x _ _ _ hlt _
    exact absurd hlt (by omega)
  | succ fuel ih =>
    intro path x I1 I2 I4 hlt h
    match x with
    | .inl (.str s) => simp [walk] at h
    | .inl .funcVal => simp [walk] at h
    | .inl .chanVal => simp [walk] at h
    | .inl (.record fs) =>
      simp only [walk] at h
      cases hb : walk heap fuel path (.inr fs) with
      | ok body => rw [hb] at h; simp at h
      | error e =>
        rw [hb] at h
        simp at h
        subst h
        refine ih path (.inr fs) I1 ?_ ?_ ?_ hb
        · intro i hi
          obtain ⟨w, hw, hr⟩ := I2 i hi
          refine ⟨w, hw, fun u hu => ?_⟩
          obtain ⟨n, v, mem, hv⟩ := hu
          exact hr u (.fieldStep mem hv)
        · intro u hu
          obtain ⟨n, v, mem, hv⟩ := hu
          exact I4 u (.fieldStep mem hv)
        · simp only [walkMeasure, gsize] at hlt ⊢
          omega
    | .inl (.ref id) =>
      simp only [walk] at h
      by_cases hmem : id ∈ path
      · obtain ⟨w, hw, hr⟩ := I2 id hmem
        exact ⟨id, w, hw, I1 id hmem, hr _ (.refl _)⟩
      · simp only [hmem, if_false] at h
        cases hw : heap[id]? with
        | none => rw [hw] at h; simp at h
        | some w =>
          rw [hw] at h
          refine ih (id :: path) (.inl w) ?_ ?_ ?_ ?_ h
          · intro i hi
            rcases List.mem_cons.mp hi with rfl | hi'
            · exact I4 (.ref i) (.refl _)
            · exact I1 i hi'
          · intro i hi
            rcases List.mem_cons.mp hi with rfl | hi'
            · exact ⟨w, hw, fun u hu => hu⟩
            · obtain ⟨w', hw', hr'⟩ := I2 i hi'
              exact ⟨w', hw', fun u hu => hr' u (.refStep hw hu)⟩
          · intro u hu
            exact I4 u (.refStep hw hu)
          · have hslack := heapSlack_cons hw hmem
            simp only [walkMeasure, gsize] at hlt ⊢
            omega
    | .inr [] => simp [walk] at h
    | .inr ((n, v) :: rest) =>
      simp only [walk] at h
      cases hv : walk heap fuel path (.inl v) with
      | error e =>
        rw [hv] at h
        simp at h
        subst h
        refine ih path (.inl v) I1 ?_ ?_ ?_ hv
        · intro i hi
          obtain ⟨w, hw, hr⟩ := I2 i hi
          exact ⟨w, hw, fun u hu => hr u ⟨n, v, List.mem_cons_self _ _, hu⟩⟩
        · intro u hu
          exact I4 u ⟨n, v, List.mem_cons_self _ _, hu⟩
        · simp only [walkMeasure, gsize] at hlt ⊢
          omega
      | ok s' =>
        rw [hv] at h
        cases hrest : walk heap fuel path (.inr rest) with
        | error e =>
          rw [hrest] at h
          simp at h
          subst h
          refine ih path (.inr rest) I1 ?_ ?_ ?_ hrest
          · intro i hi
            obtain ⟨w, hw, hr⟩ := I2 i hi
            refine ⟨w, hw, fun u hu => ?_⟩
            obtain ⟨n', v', mem, hv'⟩ := hu
            exact hr u ⟨n', v', List.mem_cons_of_mem _ mem, hv'⟩
          · intro u hu
            obtain ⟨n', v', mem, hv'⟩ := hu
            exact I4 u ⟨n', v', List.mem_cons_of_mem _ mem, hv'⟩
          · simp only [walkMeasure, gsize] at hlt ⊢
            omega
        | ok r' => rw [hrest] at h; simp at h

end WalkM

namespace WalkM

/-- C8 (amended): Marshal's recursive walk always terminates; it fails with
`UnsupportedType` on every cycle-free input some field of which holds an
unsupported kind (a function or channel-like handle); it fails with
`CyclicValue` — detected by the visited set of value identities along the
walk path — on every input whose value graph contains a reference cycle
and no unsupported field; when both conditions hold it fails with one of
the two errors; and on inputs with neither condition it succeeds,
returning neither error. -/
theorem marshal_errors (heap : List GVal) (v : GVal) :
    (¬ HasCycle heap v → ¬ HasUnsup heap v → ∃ s, marshalG heap v = .ok s) ∧
    (¬ HasCycle heap v → HasUnsup heap v → marshalG heap v = .error .UnsupportedType) ∧
    (HasCycle heap v → ¬ HasUnsup heap v → marshalG heap v = .error .CyclicValue) ∧
    (HasCycle heap v → HasUnsup heap v →
      marshalG heap v = .error .UnsupportedType ∨ marshalG heap v = .error .CyclicValue) := by
  have hcyc : marshalG heap v = .error .CyclicValue → HasCycle heap v := by
    intro h
    exact walk_cyclic v (walkMeasure heap [] (.inl v) + 1) [] (.inl v)
      (by intro i hi; simp at hi)
      (by intro i hi; simp at hi)
      (fun u hu => hu)
      (by omega)
      h
  have huns : marshalG heap v = .error .UnsupportedType → HasUnsup heap v := by
    intro h
    obtain ⟨u, hu, hx⟩ := walk_unsup (walkMeasure heap [] (.inl v) + 1) [] (.inl v) h
    exact ⟨u, hu, hx⟩
  cases hres : marshalG heap v with
  | ok s =>
    refine ⟨fun _ _ => ⟨s, rfl⟩, ?_, ?_, ?_⟩
    · intro _ hu
      exact absurd hu (ok_no_unsup hres)
    · intro hc _
      exact absurd hc (ok_no_cycle hres)
    · intro hc _
      exact absurd hc (ok_no_cycle hres)
  | error e =>
    cases e with
    | UnsupportedType =>
      exact ⟨fun _ hnu => absurd (huns hres) hnu, fun _ _ => rfl,
        fun _ hnu => absurd (huns hres) hnu, fun _ _ => Or.inl rfl⟩
    | CyclicValue =>
      exact ⟨fun hnc _ => absurd (hcyc hres) hnc, fun hnc _ => absurd (hcyc hres) hnc,
        fun _ _ => rfl, fun _ _ => Or.inr rfl⟩

theorem loopHeap_reaches : ∀ a u : GVal, Reaches loopHeap a u → a = .ref 0 → u = .ref 0 := by
  intro a u hr
  induction hr with
  | refl => intro h; exact h
  | @fieldStep fs n v u mem hru ih =>
    intro h
    exact absurd h (by simp)
  | @refStep id w u hid hru ih =>
    intro h
    injection h with h0
    subst h0
    have hw : w = .ref 0 := by
      simp [loopHeap] at hid
      exact hid.symm
    exact ih hw

theorem no_unsup_loopHeap : ¬ HasUnsup loopHeap (.ref 0) := by
  rintro ⟨u, hr, hu⟩
  have := loopHeap_reaches _ _ hr rfl
  subst this
  rcases hu with h | h <;> simp at h

theorem no_cycle_empty (v : GVal) : ¬ HasCycle ([] : List GVal) v := by
  rintro ⟨id, w, hid, _, _⟩
  simp at hid

theorem str_no_unsup (s : String) : ¬ HasUnsup ([] : List GVal) (.str s) := by
  rintro ⟨u, hr, hu⟩
  cases hr
  rcases hu with h | h <;> simp at h

theorem cycle_loopHeap : HasCycle loopHeap (.ref 0) :=
  ⟨0, .ref 0, rfl, .refl _, .refl _⟩

theorem unsup_overlap : HasUnsup overlapHeap (.ref 0) :=
  ⟨.funcVal, .refStep rfl (.fieldStep (List.mem_cons_of_mem _ (List.mem_cons_self _ _)) (.refl _)),
    Or.inl rfl⟩

theorem overlap_eval : marshalG overlapHeap (.ref 0) = .error .CyclicValue := by
  have h8 : walkMeasure overlapHeap [] (.inl (.ref 0)) = 8 := by
    simp [walkMeasure, gsize, heapSlack, overlapHeap]
  show walk overlapHeap (walkMeasure overlapHeap [] (.inl (.ref 0)) + 1) [] (.inl (.ref 0))
    = .error .CyclicValue
  rw [h8]
  rfl

/-- Witness for C8: the three disjoint regimes of `marshal_errors` at
concrete inputs — a plain scalar marshals successfully, a bare function
value fails `UnsupportedType`, and a self-referential heap entry fails
`CyclicValue`. -/
theorem marshal_errors_witness :
    (∃ s, marshalG ([] : List GVal) (.str "a") = .ok s) ∧
    marshalG ([] : List GVal) .funcVal = .error .UnsupportedType ∧
    marshalG loopHeap (.ref 0) = .error .CyclicValue :=
  ⟨(marshal_errors [] (.str "a")).1 (no_cycle_empty _) (str_no_unsup "a"),
   (marshal_errors [] .funcVal).2.1 (no_cycle_empty _) ⟨.funcVal, .refl _, Or.inl rfl⟩,
   (marshal_errors loopHeap (.ref 0)).2.2.1 cycle_loopHeap no_unsup_loopHeap⟩

/-- C8 counterexample: the claim's universal — `UnsupportedType` for every
input in which some field holds an unsupported kind — fails on an input
whose graph also contains a reference cycle: `overlapHeap` holds a record
with an unsupported `funcVal` field, yet Marshal reports `CyclicValue`,
because the walk meets the cycle first. -/
theorem unsup_overlap_counterexample :
    HasUnsup overlapHeap (.ref 0) ∧
    marshalG overlapHeap (.ref 0) = .error .CyclicValue ∧
    marshalG overlapHeap (.ref 0) ≠ .error .UnsupportedType := by
  refine ⟨unsup_overlap, overlap_eval, ?_⟩
  intro h
  rw [overlap_eval] at h
  injection h with h2
  cases h2

end WalkM
